import Mathlib

/-!
# Verification of the iNatJS request scheduler (`src/inatjs.js`)

A shallow embedding of the iNatJS client library: the RISON-style structured
parameter encoder (`toRISON`), the URL-parameter parser (`getUrlParams`), the
URL construction performed by `makeINatRequest`, the authentication check
(`checkAuthentication`), and the queue/rate-limiting dispatch engine
(`queueINatRequest` / `makeINatRequest` with its completion callbacks).

JavaScript values relevant to the encoder are modelled by the inductive type
`JSValue`; a thrown `TypeError` and the `false` sentinel returned by `toRISON`
are distinguished by `RisonResult`.  The asynchronous dispatch engine is
modelled as a labelled transition system over `EngineState`, with events for
enqueueing a descriptor, completion of the in-flight transport call, and the
firing of a scheduled `setTimeout` timer.
-/

namespace INatJS

/-- The fixed remote service root (`base_url` in the source). -/
def base_url : String := "https://api.inaturalist.org"

/-- Rate-limiting options (`apiOptions` in the source). -/
structure ApiOptions where
  APITimeout : Nat
  RequestsPerMinute : Nat
deriving DecidableEq

/-- The configured options: 1000 ms cooldown, 60 requests/minute threshold. -/
def apiOptions : ApiOptions := { APITimeout := 1000, RequestsPerMinute := 60 }

/-! ## JavaScript values for the structured parameter encoder -/

/-- The JavaScript values `toRISON` can be applied to: strings, numbers,
plain objects (ordered key/value lists), arrays, `null` and `undefined`. -/
inductive JSValue where
  | str (s : String)
  | num (n : Int)
  | obj (fields : List (String × JSValue))
  | arr (elems : List JSValue)
  | null
  | undef

/-- `typeof v == "object"`: true for plain objects, arrays — and `null`. -/
def typeofObject : JSValue → Bool
  | .obj _ => true
  | .arr _ => true
  | .null => true
  | _ => false

mutual

/-- String conversion used by `Array.prototype.join`: `null`/`undefined`
become the empty string, numbers their decimal form, nested arrays join
recursively with `","`, objects print as `[object Object]`. -/
def jsToStr : JSValue → String
  | .str s => s
  | .num n => toString n
  | .obj _ => "[object Object]"
  | .arr es => String.intercalate "," (jsToStrList es)
  | .null => ""
  | .undef => ""

def jsToStrList : List JSValue → List String
  | [] => []
  | v :: vs => jsToStr v :: jsToStrList vs

end

/-- Result of `toRISON`: a returned string, the returned `false` sentinel for
unsupported input types, or a thrown `TypeError` (from reading `.constructor`
of `null`/`undefined`). -/
inductive RisonResult where
  | ok (s : String)
  | sentinel
  | typeError
deriving DecidableEq

/-- The array branch of `toRISON`:
`"(" + arr.join(":!t,") + ":!t)"`. -/
def risonArray (parts : List String) : String :=
  "(" ++ String.intercalate ":!t," parts ++ ":!t)"

/-- `String.prototype.split(",")`, accumulating the current chunk. -/
def splitCommaGo (acc : List Char) : List Char → List String
  | [] => [String.mk acc.reverse]
  | c :: rest =>
    if c = ',' then String.mk acc.reverse :: splitCommaGo [] rest
    else splitCommaGo (c :: acc) rest

/-- `s.split(",")` from JavaScript. -/
def jsSplitComma (s : String) : List String := splitCommaGo [] s.toList

mutual

/-- `toRISON` from the source.  The `Object` branch iterates over the entries,
recursing when `typeof val == "object"`; the `Array` branch joins with the
`:!t` marker; the `String` branch splits on commas and falls through to the
array branch (inlined here via `risonArray`, which is exactly what the
recursive call `toRISON(arr.split(","))` produces); any other constructor
returns the `false` sentinel.  `null` and `undefined` have no `.constructor`,
so the access throws a `TypeError`. -/
def toRISON : JSValue → RisonResult
  | .null => .typeError
  | .undef => .typeError
  | .obj fs =>
    match toRISONFields fs with
    | .ok parts => .ok ("(" ++ String.intercalate "," parts ++ ")")
    | .error _ => .typeError
  | .arr es => .ok (risonArray (jsToStrList es))
  | .str s =>
    if s.toList.contains ',' then .ok (risonArray (jsSplitComma s))
    else .ok ("(" ++ s ++ ":!t)")
  | .num _ => .sentinel

/-- The loop over `Object.entries(arr)` in `toRISON`: composite values are
recursively encoded as `key:<encoded>` (a thrown `TypeError` propagates, and a
`false` sentinel would be coerced to the string `"false"` by the `+`
concatenation); scalar values are encoded as `key:!t`. -/
def toRISONFields : List (String × JSValue) → Except Unit (List String)
  | [] => .ok []
  | (k, v) :: rest =>
    if typeofObject v then
      match toRISON v with
      | .ok s => (toRISONFields rest).map (fun parts => (k ++ ":" ++ s) :: parts)
      | .sentinel => (toRISONFields rest).map (fun parts => (k ++ ":false") :: parts)
      | .typeError => .error ()
    else
      (toRISONFields rest).map (fun parts => (k ++ ":!t") :: parts)

end

end INatJS

namespace INatJS

/-! ## Theorems about the structured parameter encoder -/

/-- **C7.** `encodeStructuredParams` (`toRISON`) produces exactly
`"(a:!t,b:!t)"` for `{a:1,b:2}`, `"(x:!t,y:!t)"` for `["x","y"]`,
`"(p:!t,q:!t)"` for `"p,q"`, and the `false` failure sentinel — not a thrown
value — for an unsupported input such as the number `42`. -/
theorem toRISON_examples :
    toRISON (.obj [("a", .num 1), ("b", .num 2)]) = .ok "(a:!t,b:!t)" ∧
    toRISON (.arr [.str "x", .str "y"]) = .ok "(x:!t,y:!t)" ∧
    toRISON (.str "p,q") = .ok "(p:!t,q:!t)" ∧
    toRISON (.num 42) = .sentinel ∧
    RisonResult.sentinel ≠ RisonResult.typeError := by
  refine ⟨rfl, rfl, by decide, rfl, by decide⟩

/-- **C9.** `toRISON` is not total over unsupported inputs: on `null` or
`undefined` — directly, or reached recursively through an object entry whose
value is `null` (which satisfies the `typeof val == "object"` test) — it
throws a `TypeError` while reading `.constructor` instead of returning the
`false` sentinel; the sentinel is returned only for non-null, defined inputs
of unsupported type (numbers, in this model). -/
theorem toRISON_null_throws :
    toRISON .null = .typeError ∧
    toRISON .undef = .typeError ∧
    toRISON (.obj [("k", .null)]) = .typeError ∧
    ∀ v : JSValue, toRISON v = .sentinel → ∃ n, v = .num n := by
  refine ⟨rfl, rfl, rfl, ?_⟩
  intro v h
  cases v with
  | str s =>
    rw [toRISON] at h
    split at h <;> exact absurd h (by simp)
  | num n => exact ⟨n, rfl⟩
  | obj fs =>
    rw [toRISON] at h
    split at h <;> exact absurd h (by simp)
  | arr es => exact absurd h (by rw [toRISON]; simp)
  | null => exact absurd h (by rw [toRISON]; simp)
  | undef => exact absurd h (by rw [toRISON]; simp)

/-- Witness for `toRISON_null_throws` at the concrete input `.num 5`. -/
theorem toRISON_null_throws_witness : ∃ n, JSValue.num 5 = JSValue.num n :=
  toRISON_null_throws.2.2.2 (.num 5) rfl

/-! ## URL construction by `makeINatRequest` -/

/-- The request descriptor fields that determine the constructed URL.
`params` is `none` when the descriptor carries no `params` key
(`typeof request.params == 'object'` fails), and `fields` is `none` when the
descriptor carries no `fields` key (the JavaScript value `undefined`). -/
structure INatRequest where
  method : String
  apiVersion : String
  endpoint : String
  params : Option (List (String × String)) := none
  fields : Option String := none
deriving DecidableEq

/-- jQuery's `$.param`, an external collaborator; modelled as plain
`key=value` joining with `&` (the claims depend only on its presence). -/
def jqueryParam (ps : List (String × String)) : String :=
  String.intercalate "&" (ps.map fun p => p.1 ++ "=" ++ p.2)

/-- String coercion applied by `+` to the `fields` value: the JavaScript
value `undefined` concatenates as the string `"undefined"`. -/
def jsFieldString : Option String → String
  | none => "undefined"
  | some s => s

/-- The URL through the `params` step:
`[base_url, request.apiVersion, request.endpoint].join("/")` followed by
`"?" + $.param(request.params)` when `params` is an object. -/
def buildURLNoFields (r : INatRequest) : String :=
  let url := String.intercalate "/" [base_url, r.apiVersion, r.endpoint]
  match r.params with
  | some ps => url ++ "?" ++ jqueryParam ps
  | none => url

/-- The full URL built by `makeINatRequest`.  The fields test is the
JavaScript condition `request.apiVersion == "v2" & request.fields != ""`:
under loose inequality `undefined != ""` is true, so the test holds whenever
`fields` is not the empty string — including when it is absent. -/
def buildURL (r : INatRequest) : String :=
  if r.apiVersion = "v2" ∧ r.fields ≠ some "" then
    buildURLNoFields r ++ (if r.params.isSome then "&" else "?")
      ++ "fields=" ++ jsFieldString r.fields
  else buildURLNoFields r

/-! ## Theorems about URL construction -/

/-- **C1, counterexample.**  For the dispatched descriptor
`{apiVersion: "v2", endpoint: "observations", fields: "p,q"}` the URL carries
the raw string `p,q` as the `fields=` parameter, while the
`StructuredParamEncoder` encoding of that fields value is `"(p:!t,q:!t)"` —
so the appended value is not the encoded one. -/
theorem buildURL_fields_not_encoded :
    buildURL { method := "GET", apiVersion := "v2", endpoint := "observations",
               fields := some "p,q" } =
      "https://api.inaturalist.org/v2/observations?fields=p,q" ∧
    toRISON (.str "p,q") = .ok "(p:!t,q:!t)" ∧
    buildURL { method := "GET", apiVersion := "v2", endpoint := "observations",
               fields := some "p,q" } ≠
      "https://api.inaturalist.org/v2/observations?fields=(p:!t,q:!t)" := by
  refine ⟨by decide, by decide, by decide⟩

/-- **C1, amended.**  For every dispatched descriptor with apiVersion `"v2"`
and present, non-empty `fields`, the value appended as the `fields=`
parameter is the descriptor's raw `fields` string, unencoded; `toRISON` is a
separate utility that callers may apply themselves before enqueueing. -/
theorem buildURL_appends_raw_fields (r : INatRequest) (f : String)
    (hv : r.apiVersion = "v2") (hf : r.fields = some f) (hne : f ≠ "") :
    buildURL r =
      buildURLNoFields r ++ (if r.params.isSome then "&" else "?")
        ++ "fields=" ++ f := by
  have : r.fields ≠ some "" := by
    rw [hf]; intro h; exact hne (by injection h)
  rw [buildURL, if_pos ⟨hv, this⟩, hf]
  rfl

/-- Witness for `buildURL_appends_raw_fields` at a concrete descriptor. -/
theorem buildURL_appends_raw_fields_witness :
    buildURL { method := "GET", apiVersion := "v2", endpoint := "taxa",
               fields := some "name" } =
      buildURLNoFields { method := "GET", apiVersion := "v2", endpoint := "taxa",
                         fields := some "name" } ++ "?" ++ "fields=" ++ "name" :=
  buildURL_appends_raw_fields _ "name" rfl rfl (by decide)

/-- **C2.**  The fields test `request.apiVersion == "v2" & request.fields != ""`
is satisfied by an absent `fields` key (JavaScript: `undefined != ""` is
true), so a v2 descriptor with no `fields` gets `fields=undefined` appended
to its URL — contradicting the claim that absent fields produce a URL with no
`fields` parameter. -/
theorem buildURL_absent_fields_bug :
    buildURL { method := "GET", apiVersion := "v2", endpoint := "observations" } =
      "https://api.inaturalist.org/v2/observations?fields=undefined" ∧
    buildURL { method := "GET", apiVersion := "v2", endpoint := "observations",
               params := some [("page", "1")] } =
      "https://api.inaturalist.org/v2/observations?page=1&fields=undefined" := by
  refine ⟨by decide, by decide⟩

/-! ## Authentication (`checkAuthentication`) -/

/-- The mutable authentication state: the `headers.Authorization` entry and
`iNatAuthorized` (`false` or the verified user's login, modelled as
`Option String`). -/
structure AuthState where
  authorization : String
  iNatAuthorized : Option String
deriving DecidableEq

/-- Outcome of the `users/me` probe request issued by `checkAuthentication`:
the transport either succeeds with the account's login or errors. -/
inductive ProbeOutcome where
  | success (login : String)
  | failure
deriving DecidableEq

/-- JavaScript truthiness of the `apiToken` argument: `undefined` and the
empty string are falsy; every other string is truthy. -/
def jsTruthy : Option String → Bool
  | none => false
  | some s => !(s == "")

/-- `checkAuthentication` from the source, folded over the probe's eventual
outcome: a truthy token is stored in `headers.Authorization` and the probe is
enqueued — on success `iNatAuthorized` becomes the first result's login and
the callback receives `true`; on error both the header and `iNatAuthorized`
are cleared and the callback receives `false`.  A falsy token short-circuits:
the callback receives `false` and the state is left untouched. -/
def checkAuthentication (apiToken : Option String) (st : AuthState)
    (probe : ProbeOutcome) : AuthState × Bool :=
  if jsTruthy apiToken then
    match probe with
    | .success login =>
      ({ authorization := apiToken.getD "", iNatAuthorized := some login }, true)
    | .failure =>
      ({ authorization := "", iNatAuthorized := none }, false)
  else (st, false)

/-- **C3, counterexample.**  A verification failure with a missing token does
not clear the stored credential: starting from a previously authorized state,
`checkAuthentication(undefined, cb)` reports `false` but leaves both the
`Authorization` header and the authorized identity in place. -/
theorem checkAuthentication_stale_state :
    checkAuthentication none ⟨"stale-token", some "stale-user"⟩ .failure =
      (⟨"stale-token", some "stale-user"⟩, false) ∧
    ("stale-token" : String) ≠ "" := by
  refine ⟨by decide, by decide⟩

/-- **C3, amended.**  When the probe request errors, both the stored
credential and the authorized identity are cleared and `false` is reported
via the callback; when the token is missing or falsy, `false` is reported
(synchronously, without a probe) but the stored credential and identity are
left unchanged. -/
theorem checkAuthentication_failure_behaviour (tok : Option String)
    (st : AuthState) (p : ProbeOutcome) :
    (jsTruthy tok = false → checkAuthentication tok st p = (st, false)) ∧
    (jsTruthy tok = true →
      checkAuthentication tok st .failure =
        ({ authorization := "", iNatAuthorized := none }, false)) := by
  constructor
  · intro h; simp [checkAuthentication, h]
  · intro h; simp [checkAuthentication, h]

/-- Witness for `checkAuthentication_failure_behaviour` at concrete inputs. -/
theorem checkAuthentication_failure_behaviour_witness :
    checkAuthentication none ⟨"t", some "u"⟩ .failure = (⟨"t", some "u"⟩, false) ∧
    checkAuthentication (some "tok") ⟨"t", some "u"⟩ .failure =
      (⟨"", none⟩, false) :=
  ⟨(checkAuthentication_failure_behaviour none ⟨"t", some "u"⟩ .failure).1 rfl,
   (checkAuthentication_failure_behaviour (some "tok") ⟨"t", some "u"⟩
      .failure).2 rfl⟩

/-! ## `getUrlParams`: scanning `key=value` pairs

The source matches the global regex `/[?&]?([^=&]+)=([^&]*)/g`.  `matchAt`
reproduces one match attempt at a fixed position (including the regex
engine's fallback when the optional leading `?` is not consumed), `findMatch`
finds the leftmost match, and `scanPairs` iterates from the end of each match
as a global regex does.  Iteration is driven by a fuel argument initialised
to the string length; every match consumes at least two characters, so the
fuel never runs out (`scanGo_fuel_irrelevant` below). -/

/-- A character usable inside the key group `[^=&]+`. -/
def isKeyChar (c : Char) : Bool := c != '=' && c != '&'

/-- A character usable inside the value group `[^&]*`. -/
def isValChar (c : Char) : Bool := c != '&'

/-- One attempt of `([^=&]+)=([^&]*)` at the head of `cs`: a non-empty
greedy key run, a literal `=`, then a greedy value run.  Returns the key,
the value and the remaining characters. -/
def attemptAt (cs : List Char) : Option (String × String × List Char) :=
  let key := cs.takeWhile isKeyChar
  if key.isEmpty then none
  else
    match cs.dropWhile isKeyChar with
    | '=' :: rest2 =>
      some (String.mk key, String.mk (rest2.takeWhile isValChar),
            rest2.dropWhile isValChar)
    | _ => none

/-- One attempt of the full pattern `[?&]?([^=&]+)=([^&]*)` at the head of
`cs`.  A leading `&` can only be consumed by the optional group (it is
excluded from the key); a leading `?` is preferentially consumed, with the
regex engine falling back to leaving it inside the key. -/
def matchAt (cs : List Char) : Option (String × String × List Char) :=
  match cs with
  | '&' :: rest => attemptAt rest
  | '?' :: rest =>
    match attemptAt rest with
    | some r => some r
    | none => attemptAt ('?' :: rest)
  | _ => attemptAt cs

/-- The leftmost match of the pattern in `cs`, as a global regex search. -/
def findMatch : List Char → Option (String × String × List Char)
  | [] => none
  | c :: rest =>
    match matchAt (c :: rest) with
    | some r => some r
    | none => findMatch rest

/-- Global iteration of the regex: collect matches left to right, resuming
after each match. -/
def scanGo : Nat → List Char → List (String × String)
  | 0, _ => []
  | fuel + 1, cs =>
    match findMatch cs with
    | none => []
    | some (k, v, rest) => (k, v) :: scanGo fuel rest

/-- All `key=value` matches of `/[?&]?([^=&]+)=([^&]*)/g` in `cs`. -/
def scanPairs (cs : List Char) : List (String × String) := scanGo cs.length cs

/-! ## `decodeURIComponent`

An external ECMAScript builtin used on each matched value; modelled with the
standard `Decode` algorithm: literal characters pass through, `%` must be
followed by two hex digits, and the resulting bytes must form a valid UTF-8
sequence (strict leading/continuation ranges, no overlongs, no surrogates) —
otherwise a `URIError` is thrown. -/

/-- The `URIError` exception thrown by `decodeURIComponent`. -/
inductive URIError where
  | uriError
deriving DecidableEq

/-- The numeric value of a hexadecimal digit. -/
def hexDigit? (c : Char) : Option Nat :=
  if '0' ≤ c ∧ c ≤ '9' then some (c.toNat - '0'.toNat)
  else if 'a' ≤ c ∧ c ≤ 'f' then some (c.toNat - 'a'.toNat + 10)
  else if 'A' ≤ c ∧ c ≤ 'F' then some (c.toNat - 'A'.toNat + 10)
  else none

/-- Read one `%XX` escape from the head of the character list. -/
def readByte? : List Char → Option (Nat × List Char)
  | '%' :: h1 :: h2 :: rest =>
    match hexDigit? h1, hexDigit? h2 with
    | some a, some b => some (16 * a + b, rest)
    | _, _ => none
  | _ => none

/-- Decode one percent-escaped UTF-8 sequence starting at a `%`.  Returns
`none` (a `URIError`) for an incomplete escape, a non-hex escape, an invalid
leading byte, or an out-of-range continuation byte. -/
def readSeq (cs : List Char) : Option (Char × List Char) :=
  match readByte? cs with
  | none => none
  | some (b1, r1) =>
    if b1 < 0x80 then some (Char.ofNat b1, r1)
    else if 0xC2 ≤ b1 ∧ b1 ≤ 0xDF then
      match readByte? r1 with
      | some (b2, r2) =>
        if 0x80 ≤ b2 ∧ b2 ≤ 0xBF then
          some (Char.ofNat ((b1 - 0xC0) * 0x40 + (b2 - 0x80)), r2)
        else none
      | none => none
    else if 0xE0 ≤ b1 ∧ b1 ≤ 0xEF then
      let lo2 := if b1 = 0xE0 then 0xA0 else 0x80
      let hi2 := if b1 = 0xED then 0x9F else 0xBF
      match readByte? r1 with
      | some (b2, r2) =>
        if lo2 ≤ b2 ∧ b2 ≤ hi2 then
          match readByte? r2 with
          | some (b3, r3) =>
            if 0x80 ≤ b3 ∧ b3 ≤ 0xBF then
              some (Char.ofNat ((b1 - 0xE0) * 0x1000 + (b2 - 0x80) * 0x40
                      + (b3 - 0x80)), r3)
            else none
          | none => none
        else none
      | none => none
    else if 0xF0 ≤ b1 ∧ b1 ≤ 0xF4 then
      let lo2 := if b1 = 0xF0 then 0x90 else 0x80
      let hi2 := if b1 = 0xF4 then 0x8F else 0xBF
      match readByte? r1 with
      | some (b2, r2) =>
        if lo2 ≤ b2 ∧ b2 ≤ hi2 then
          match readByte? r2 with
          | some (b3, r3) =>
            if 0x80 ≤ b3 ∧ b3 ≤ 0xBF then
              match readByte? r3 with
              | some (b4, r4) =>
                if 0x80 ≤ b4 ∧ b4 ≤ 0xBF then
                  some (Char.ofNat ((b1 - 0xF0) * 0x40000
                          + (b2 - 0x80) * 0x1000 + (b3 - 0x80) * 0x40
                          + (b4 - 0x80)), r4)
                else none
              | none => none
            else none
          | none => none
        else none
      | none => none
    else none

/-- The decode loop: literal characters pass through, a `%` starts an escape
sequence.  Fuel is initialised to the character count; every escape consumes
at least three characters, so the fuel never runs out. -/
def decodeGo : Nat → List Char → Except URIError (List Char)
  | _, [] => .ok []
  | 0, _ :: _ => .ok []
  | fuel + 1, c :: rest =>
    if c = '%' then
      match readSeq (c :: rest) with
      | none => .error .uriError
      | some (ch, rest2) => (decodeGo fuel rest2).map (ch :: ·)
    else (decodeGo fuel rest).map (c :: ·)

/-- `decodeURIComponent` on a character list. -/
def decodeChars (cs : List Char) : Except URIError (List Char) :=
  decodeGo cs.length cs

/-- The ECMAScript builtin `decodeURIComponent`: either the decoded string
or a thrown `URIError`. -/
def decodeURIComponent (s : String) : Except URIError String :=
  (decodeChars s.toList).map String.mk

/-! ## `getUrlParams` itself -/

/-- JavaScript property assignment `params[key] = value` on a plain object:
an existing key keeps its position but gets the new value, a new key is
appended (insertion order = first-seen order). -/
def objInsert (m : List (String × String)) (k v : String) :
    List (String × String) :=
  if m.any (fun p => p.1 == k) then
    m.map (fun p => if p.1 == k then (k, v) else p)
  else m ++ [(k, v)]

/-- The `url.replace(regex, callback)` loop: for each matched pair the value
is percent-decoded (a `URIError` aborts the whole call) and stored under the
(undecoded) key. -/
def buildParams : List (String × String) → List (String × String) →
    Except URIError (List (String × String))
  | [], m => .ok m
  | (k, v) :: rest, m =>
    match decodeURIComponent v with
    | .ok dv => buildParams rest (objInsert m k dv)
    | .error e => .error e

/-- The `params` object accumulated by `getUrlParams`. -/
def getUrlParamsObj (url : String) : Except URIError (List (String × String)) :=
  buildParams (scanPairs url.toList) []

/-- Result of `getUrlParams`: the whole mapping, or — when a truthy key is
passed — that key's value (`none` = the JavaScript `undefined`). -/
inductive UrlResult where
  | mapping (m : List (String × String))
  | value (v : Option String)
deriving DecidableEq

/-- `getUrlParams` from the source: build the params object, then return
`key ? params[key] : params` (an absent or empty `key` is falsy). -/
def getUrlParams (url : String) (key : Option String) :
    Except URIError UrlResult :=
  (getUrlParamsObj url).map (fun m =>
    match key with
    | some k => if k = "" then .mapping m else .value (List.lookup k m)
    | none => .mapping m)

/-! ## Theorems about `getUrlParams` -/

/-- **C8.** `getUrlParams` scans for `key=value` pairs separated by `&` or
`?` and percent-decodes each value: `"?a=1&b=two%20words"` yields
`{a:"1", b:"two words"}`; later duplicate keys overwrite earlier ones
(`"?a=1&a=2"` yields `{a:"2"}`); and a (truthy) key argument selects just
that key's decoded value from the full mapping, `undefined` when absent. -/
theorem getUrlParams_behaviour :
    getUrlParams "?a=1&b=two%20words" none =
      .ok (.mapping [("a", "1"), ("b", "two words")]) ∧
    getUrlParams "?a=1&a=2" none = .ok (.mapping [("a", "2")]) ∧
    getUrlParams "?a=1&b=2" (some "b") = .ok (.value (some "2")) ∧
    getUrlParams "?a=1" (some "zz") = .ok (.value none) ∧
    ∀ url k, k ≠ "" →
      getUrlParams url (some k) =
        (getUrlParamsObj url).map (fun m => .value (List.lookup k m)) := by
  refine ⟨rfl, rfl, rfl, rfl, ?_⟩
  intro url k hk
  rw [getUrlParams]
  cases getUrlParamsObj url with
  | ok m => simp [Except.map, hk]
  | error e => rfl

/-- Witness for `getUrlParams_behaviour` at the concrete key `"x"`. -/
theorem getUrlParams_behaviour_witness :
    getUrlParams "?x=1" (some "x") =
      (getUrlParamsObj "?x=1").map (fun m => .value (List.lookup "x" m)) :=
  getUrlParams_behaviour.2.2.2.2 "?x=1" "x" (by decide)

/-- A decoding failure anywhere in the pair list aborts `buildParams`. -/
theorem buildParams_error (l : List (String × String)) :
    ∀ m, (∃ p ∈ l, decodeURIComponent p.2 = .error .uriError) →
      buildParams l m = .error .uriError := by
  induction l with
  | nil =>
    rintro m ⟨p, hp, -⟩
    exact absurd hp (List.not_mem_nil p)
  | cons hd tl ih =>
    obtain ⟨k, v⟩ := hd
    rintro m ⟨p, hp, herr⟩
    rw [buildParams]
    rcases List.mem_cons.mp hp with h | h
    · subst h
      rw [herr]
    · cases hdec : decodeURIComponent v with
      | ok dv => exact ih _ ⟨p, h, herr⟩
      | error e => cases e; rfl

/-- **C10.** `getUrlParams` propagates the `URIError` thrown by
`decodeURIComponent` on a malformed percent-encoding — e.g. on `"?a=%"` —
returning neither a partial mapping nor a sentinel: whenever some matched
value fails to decode, the whole call (with or without a key argument)
results in the uncaught `URIError`. -/
theorem getUrlParams_uriError :
    getUrlParams "?a=%" none = .error .uriError ∧
    decodeURIComponent "%" = .error .uriError ∧
    ∀ url key,
      (∃ p ∈ scanPairs url.toList, decodeURIComponent p.2 = .error .uriError) →
      getUrlParams url key = .error .uriError := by
  refine ⟨rfl, rfl, ?_⟩
  intro url key hex
  rw [getUrlParams, getUrlParamsObj, buildParams_error _ _ hex]
  rfl

/-- Witness for `getUrlParams_uriError`: one well-formed value and one
malformed one — the whole keyed call still throws. -/
theorem getUrlParams_uriError_witness :
    getUrlParams "?b=%41&a=%" (some "b") = .error .uriError :=
  getUrlParams_uriError.2.2 "?b=%41&a=%" (some "b")
    ⟨("a", "%"), by decide, rfl⟩

/-! ## The queue / rate-limiting dispatch engine

The module-level mutable state of the source (`iNatAPIQueue`,
`iNatAPIQueued`, `iNatAPIRateLimiting`), together with the single in-flight
`$.ajax` call and the single pending `setTimeout`, form `EngineState`.
Descriptors are identified by their position in the enqueue history (a
`Nat`).  The asynchronous behaviour is a labelled transition system:

  * `enqueue d` — a `queueINatRequest(d)` call: push to the queue and, when
    `iNatAPIQueued` is false, run `makeINatRequest` synchronously; then set
    `iNatAPIQueued`.
  * `complete t` — the in-flight call finishes at time `t`: its success or
    error callback fires (recorded in `fired`), then the `complete` handler
    either schedules `makeINatRequest` after `APITimeout` (when
    `iNatAPIRateLimiting` is set) or runs it immediately.
  * `timerFire t` — the pending `setTimeout` fires at `t ≥` its scheduled
    time and runs `makeINatRequest`.

`stepv` returns `none` for events that cannot occur (completion with no call
in flight, a timer firing with none pending or before its scheduled time,
time running backwards). -/

/-- The engine state: queue of descriptor ids, the two flags, the in-flight
request, the pending dispatch timer (absolute fire-at time), the ordered
record of fired callbacks, and the current time in ms. -/
structure EngineState where
  queue : List Nat
  queued : Bool
  rateLimiting : Bool
  inFlight : Option Nat
  timer : Option Nat
  fired : List Nat
  now : Nat
deriving DecidableEq

/-- `makeINatRequest` from the source: pop the head descriptor and issue it
(setting `iNatAPIRateLimiting` when the remaining queue length exceeds
`RequestsPerMinute`), or — queue empty — clear `iNatAPIQueued` and
`iNatAPIRateLimiting`. -/
def makeINatRequest (s : EngineState) : EngineState :=
  match s.queue with
  | r :: rest =>
    { s with
      queue := rest
      rateLimiting :=
        s.rateLimiting || decide (apiOptions.RequestsPerMinute < rest.length)
      inFlight := some r }
  | [] => { s with queued := false, rateLimiting := false }

/-- The observable events of the engine. -/
inductive INatEvent where
  | enqueue (d : Nat)
  | complete (t : Nat)
  | timerFire (t : Nat)
deriving DecidableEq

/-- One engine step; `none` when the event cannot occur in state `s`. -/
def stepv (s : EngineState) : INatEvent → Option EngineState
  | .enqueue d =>
    let s1 := { s with queue := s.queue ++ [d] }
    let s2 := if s.queued then s1 else makeINatRequest s1
    some { s2 with queued := true }
  | .complete t =>
    match s.inFlight with
    | none => none
    | some d =>
      if t < s.now then none
      else
        let s1 := { s with fired := s.fired ++ [d], inFlight := none, now := t }
        if s1.rateLimiting then
          some { s1 with timer := some (t + apiOptions.APITimeout) }
        else some (makeINatRequest s1)
  | .timerFire t =>
    match s.timer with
    | none => none
    | some ft =>
      if t < ft ∨ t < s.now then none
      else some (makeINatRequest { s with timer := none, now := t })

/-- Run a list of events from a state. -/
def runEvents : EngineState → List INatEvent → Option EngineState
  | s, [] => some s
  | s, e :: evs =>
    match stepv s e with
    | none => none
    | some s' => runEvents s' evs

/-- The initial module state: empty queue, both flags false, nothing in
flight, no timer. -/
def initState : EngineState :=
  { queue := [], queued := false, rateLimiting := false, inFlight := none
    timer := none, fired := [], now := 0 }

/-- The descriptors enqueued by an event list, in order. -/
def enqueuedOf : List INatEvent → List Nat
  | [] => []
  | .enqueue d :: evs => d :: enqueuedOf evs
  | .complete _ :: evs => enqueuedOf evs
  | .timerFire _ :: evs => enqueuedOf evs

/-- Descriptors enqueued by a single event. -/
def enqOfEvent : INatEvent → List Nat
  | .enqueue d => [d]
  | _ => []

/-- All descriptors currently owned by the engine, in callback order: already
fired, then in flight, then still queued. -/
def liveList (s : EngineState) : List Nat :=
  s.fired ++ s.inFlight.toList ++ s.queue

/-- Structural invariant of reachable engine states: when `iNatAPIQueued` is
false nothing is in flight and no timer is pending, and a pending timer
implies no call is in flight. -/
def EngineInv (s : EngineState) : Prop :=
  (s.queued = false → s.inFlight = none ∧ s.timer = none) ∧
  (s.timer.isSome → s.inFlight = none)


@[simp] theorem makeINatRequest_timer (s : EngineState) :
    (makeINatRequest s).timer = s.timer := by
  rw [makeINatRequest]; cases s.queue <;> rfl

@[simp] theorem makeINatRequest_fired (s : EngineState) :
    (makeINatRequest s).fired = s.fired := by
  rw [makeINatRequest]; cases s.queue <;> rfl

@[simp] theorem makeINatRequest_now (s : EngineState) :
    (makeINatRequest s).now = s.now := by
  rw [makeINatRequest]; cases s.queue <;> rfl

/-- Dispatching does not change the engine's live list: the popped head
moves from the queue to the in-flight slot. -/
theorem makeINatRequest_liveList (s : EngineState) (h : s.inFlight = none) :
    liveList (makeINatRequest s) = liveList s := by
  rw [makeINatRequest]
  cases hq : s.queue with
  | nil => simp [liveList, hq]
  | cons r rest => simp [liveList, h, hq]

/-- Unfolding of a valid completion step. -/
theorem stepv_complete_eq (s : EngineState) (t : Nat) (d : Nat)
    (hif : s.inFlight = some d) (hlt : ¬ t < s.now) :
    stepv s (.complete t) =
      if s.rateLimiting then
        some { s with fired := s.fired ++ [d], inFlight := none, now := t,
                      timer := some (t + apiOptions.APITimeout) }
      else some (makeINatRequest
        { s with fired := s.fired ++ [d], inFlight := none, now := t }) := by
  rw [stepv, hif]
  simp only [if_neg hlt]

/-- Unfolding of a valid timer-firing step. -/
theorem stepv_timerFire_eq (s : EngineState) (t ft : Nat)
    (htb : s.timer = some ft) (hv : ¬ (t < ft ∨ t < s.now)) :
    stepv s (.timerFire t) =
      some (makeINatRequest { s with timer := none, now := t }) := by
  rw [stepv, htb]
  simp only [if_neg hv]

/-- Unfolding of an enqueue step. -/
theorem stepv_enqueue_eq (s : EngineState) (d : Nat) :
    stepv s (.enqueue d) =
      some { (if s.queued then { s with queue := s.queue ++ [d] }
              else makeINatRequest { s with queue := s.queue ++ [d] }) with
             queued := true } := rfl

/-- Dispatching from a quiescent slot preserves the structural invariant. -/
theorem EngineInv_make (s1 : EngineState) (hif : s1.inFlight = none)
    (htm : s1.timer = none) (hqd : s1.queued = true) :
    EngineInv (makeINatRequest s1) := by
  rw [makeINatRequest]
  cases hql : s1.queue with
  | nil => exact ⟨fun _ => ⟨hif, htm⟩, fun _ => hif⟩
  | cons r rest =>
    exact ⟨fun h => absurd (hqd.symm.trans h) (by simp),
           fun h => absurd (htm ▸ h) (by simp)⟩

/-- The dispatch performed inside `queueINatRequest` (followed by setting
`iNatAPIQueued`) preserves the structural invariant. -/
theorem EngineInv_make_enq (s1 : EngineState) (htm : s1.timer = none) :
    EngineInv { makeINatRequest s1 with queued := true } := by
  constructor
  · intro h; exact absurd h (by simp)
  · intro h; exact absurd h (by simp [htm])

/-- One step preserves the structural invariant and appends exactly the
newly enqueued descriptors to the engine's live list. -/
theorem stepv_preserves (s s' : EngineState) (e : INatEvent)
    (hinv : EngineInv s) (hstep : stepv s e = some s') :
    EngineInv s' ∧ liveList s' = liveList s ++ enqOfEvent e := by
  obtain ⟨hq, ht⟩ := hinv
  cases e with
  | enqueue d =>
    rw [stepv_enqueue_eq] at hstep
    simp only [Option.some.injEq] at hstep
    by_cases hqd : s.queued = true
    · rw [if_pos hqd] at hstep
      subst hstep
      refine ⟨⟨fun h => absurd h (by simp), fun h => ht h⟩, ?_⟩
      simp [liveList, enqOfEvent]
    · have hqd' : s.queued = false := by
        cases hqb : s.queued
        · rfl
        · exact absurd hqb hqd
      obtain ⟨hif, htm⟩ := hq hqd'
      rw [if_neg hqd] at hstep
      subst hstep
      refine ⟨EngineInv_make_enq _ htm, ?_⟩
      have h2 := makeINatRequest_liveList { s with queue := s.queue ++ [d] } hif
      show liveList (makeINatRequest { s with queue := s.queue ++ [d] }) = _
      rw [h2]
      simp [liveList, enqOfEvent]
  | complete t =>
    cases hif : s.inFlight with
    | none =>
      rw [stepv, hif] at hstep
      exact absurd hstep (by simp)
    | some d =>
      by_cases hlt : t < s.now
      · rw [stepv, hif] at hstep
        simp only [if_pos hlt] at hstep
        exact absurd hstep (by simp)
      · rw [stepv_complete_eq s t d hif hlt] at hstep
        have hqd : s.queued = true := by
          cases hqb : s.queued
          · have := (hq hqb).1
            rw [this] at hif
            exact absurd hif (by simp)
          · rfl
        have htm : s.timer = none := by
          cases htb : s.timer with
          | none => rfl
          | some ft =>
            have := ht (by rw [htb]; rfl)
            rw [this] at hif
            exact absurd hif (by simp)
        by_cases hrl : s.rateLimiting = true
        · rw [if_pos hrl] at hstep
          simp only [Option.some.injEq] at hstep
          subst hstep
          refine ⟨⟨fun h => absurd h (by simp [hqd]), fun _ => rfl⟩, ?_⟩
          simp [liveList, hif, enqOfEvent]
        · rw [if_neg hrl] at hstep
          simp only [Option.some.injEq] at hstep
          subst hstep
          refine ⟨EngineInv_make _ rfl htm hqd, ?_⟩
          have h2 := makeINatRequest_liveList
            { s with fired := s.fired ++ [d], inFlight := none, now := t } rfl
          rw [h2]
          simp [liveList, hif, enqOfEvent]
  | timerFire t =>
    cases htb : s.timer with
    | none =>
      rw [stepv, htb] at hstep
      exact absurd hstep (by simp)
    | some ft =>
      by_cases hv : t < ft ∨ t < s.now
      · rw [stepv, htb] at hstep
        simp only [if_pos hv] at hstep
        exact absurd hstep (by simp)
      · rw [stepv_timerFire_eq s t ft htb hv] at hstep
        simp only [Option.some.injEq] at hstep
        subst hstep
        have hif : s.inFlight = none := ht (by rw [htb]; rfl)
        have hqd : s.queued = true := by
          cases hqb : s.queued
          · have := (hq hqb).2
            rw [this] at htb
            exact absurd htb (by simp)
          · rfl
        refine ⟨EngineInv_make _ hif rfl hqd, ?_⟩
        have h2 := makeINatRequest_liveList { s with timer := none, now := t } hif
        rw [h2]
        simp [liveList, enqOfEvent]

/-- Unfolding of a dispatch that pops a head descriptor. -/
theorem makeINatRequest_cons (s : EngineState) (h : Nat) (rest : List Nat)
    (hql : s.queue = h :: rest) :
    makeINatRequest s =
      { s with queue := rest,
               rateLimiting := s.rateLimiting ||
                 decide (apiOptions.RequestsPerMinute < rest.length),
               inFlight := some h } := by
  rw [makeINatRequest, hql]

/-- Unfolding of a dispatch that finds the queue empty. -/
theorem makeINatRequest_nil (s : EngineState) (hql : s.queue = []) :
    makeINatRequest s = { s with queued := false, rateLimiting := false } := by
  rw [makeINatRequest, hql]

/-- Running a valid event list preserves the invariant and appends exactly
the enqueued descriptors to the live list. -/
theorem runEvents_liveList (evs : List INatEvent) :
    ∀ s s', EngineInv s → runEvents s evs = some s' →
      EngineInv s' ∧ liveList s' = liveList s ++ enqueuedOf evs := by
  induction evs with
  | nil =>
    intro s s' hinv hrun
    rw [runEvents] at hrun
    simp only [Option.some.injEq] at hrun
    subst hrun
    exact ⟨hinv, by simp [enqueuedOf]⟩
  | cons e evs ih =>
    intro s s' hinv hrun
    rw [runEvents] at hrun
    cases hstep : stepv s e with
    | none => rw [hstep] at hrun; exact absurd hrun (by simp)
    | some s1 =>
      rw [hstep] at hrun
      obtain ⟨hinv1, hlive1⟩ := stepv_preserves s s1 e hinv hstep
      obtain ⟨hinv', hlive'⟩ := ih s1 s' hinv1 hrun
      refine ⟨hinv', ?_⟩
      rw [hlive', hlive1]
      cases e <;> simp [enqOfEvent, enqueuedOf]

/-- **C4.** For every valid event sequence from the initial state, the
success-or-error callbacks fire in exactly the enqueue order: the `fired`
record is always a prefix of the enqueued descriptor sequence (strict FIFO,
no reordering, no duplication, no retry), and once the queue is empty with
no call in flight, every enqueued descriptor's callback has fired exactly
once. -/
theorem callbacks_fifo_exactly_once (evs : List INatEvent) (s : EngineState)
    (hrun : runEvents initState evs = some s) :
    s.fired <+: enqueuedOf evs ∧
    (s.queue = [] → s.inFlight = none → s.fired = enqueuedOf evs) := by
  obtain ⟨-, hlive⟩ := runEvents_liveList evs initState s
    ⟨fun _ => ⟨rfl, rfl⟩, fun h => rfl⟩ hrun
  have hlive' : s.fired ++ (s.inFlight.toList ++ s.queue) = enqueuedOf evs := by
    simpa [liveList, initState] using hlive
  constructor
  · exact ⟨s.inFlight.toList ++ s.queue, hlive'⟩
  · intro hq hif
    simpa [hq, hif] using hlive'

/-- Witness for `callbacks_fifo_exactly_once`: two enqueues and two
completions drain the queue with both callbacks fired in enqueue order. -/
theorem callbacks_fifo_exactly_once_witness :
    (⟨[], false, false, none, none, [1, 2], 6⟩ : EngineState).fired =
      enqueuedOf [.enqueue 1, .enqueue 2, .complete 5, .complete 6] :=
  (callbacks_fifo_exactly_once [.enqueue 1, .enqueue 2, .complete 5, .complete 6]
    ⟨[], false, false, none, none, [1, 2], 6⟩ (by decide)).2 rfl rfl

/-- **C5.** `makeINatRequest` sets `iNatAPIRateLimiting` exactly when, after
popping the head descriptor, the remaining queue length strictly exceeds
`RequestsPerMinute` — never clearing it while dispatching (the flag is
monotone across dispatch steps, and `iNatAPIQueued` is untouched); both it
and the queue-active flag are cleared exactly by the step that finds the
queue empty. -/
theorem rateLimiting_policy (s : EngineState) :
    (∀ d rest, s.queue = d :: rest →
      (makeINatRequest s).rateLimiting =
          (s.rateLimiting ||
            decide (apiOptions.RequestsPerMinute < rest.length)) ∧
        (makeINatRequest s).queued = s.queued) ∧
    (s.queue = [] →
      (makeINatRequest s).rateLimiting = false ∧
        (makeINatRequest s).queued = false) := by
  constructor
  · intro d rest hq
    rw [makeINatRequest_cons s d rest hq]
    exact ⟨rfl, rfl⟩
  · intro hq
    rw [makeINatRequest_nil s hq]
    exact ⟨rfl, rfl⟩

/-- Witness for `rateLimiting_policy` at concrete states: a dispatch with a
non-empty remaining queue, and an empty-queue step clearing the flags. -/
theorem rateLimiting_policy_witness :
    (makeINatRequest ⟨[7, 8], true, true, none, none, [], 0⟩).rateLimiting =
        (true || decide (apiOptions.RequestsPerMinute < [8].length)) ∧
    (makeINatRequest ⟨[], true, true, none, none, [], 0⟩).rateLimiting = false :=
  ⟨((rateLimiting_policy ⟨[7, 8], true, true, none, none, [], 0⟩).1 7 [8]
      rfl).1,
   ((rateLimiting_policy ⟨[], true, true, none, none, [], 0⟩).2 rfl).1⟩

/-- **C6.** The post-dispatch delay policy, with `APITimeout = 1000` ms:
when a completion happens at time `t` with `iNatAPIRateLimiting` set, no
next dispatch happens in that step — the next `makeINatRequest` is scheduled
for `t + APITimeout`, and the pending timer can only fire at a time `≥` its
scheduled time (at which point the head descriptor, if any, is dispatched);
when the flag is not set, the completion step itself dispatches the next
queued descriptor immediately, at the very completion time `t`. -/
theorem dispatch_cooldown_policy :
    apiOptions.APITimeout = 1000 ∧
    (∀ s t d s', s.inFlight = some d → s.rateLimiting = true →
      stepv s (.complete t) = some s' →
        s'.inFlight = none ∧ s'.timer = some (t + apiOptions.APITimeout)) ∧
    (∀ s t ft s', s.timer = some ft → stepv s (.timerFire t) = some s' →
      ft ≤ t ∧ ∀ h rest, s.queue = h :: rest →
        s'.inFlight = some h ∧ s'.now = t) ∧
    (∀ s t d s' h rest, s.inFlight = some d → s.rateLimiting = false →
      s.queue = h :: rest → stepv s (.complete t) = some s' →
        s'.inFlight = some h ∧ s'.now = t) := by
  refine ⟨rfl, ?_, ?_, ?_⟩
  · intro s t d s' hif hrl hstep
    have hlt : ¬ t < s.now := by
      by_contra hlt
      rw [stepv, hif] at hstep
      simp only [if_pos hlt] at hstep
      exact absurd hstep (by simp)
    rw [stepv_complete_eq s t d hif hlt, if_pos hrl] at hstep
    simp only [Option.some.injEq] at hstep
    subst hstep
    exact ⟨rfl, rfl⟩
  · intro s t ft s' htb hstep
    have hv : ¬ (t < ft ∨ t < s.now) := by
      by_contra hv
      rw [stepv, htb] at hstep
      simp only [if_pos hv] at hstep
      exact absurd hstep (by simp)
    rw [stepv_timerFire_eq s t ft htb hv] at hstep
    simp only [Option.some.injEq] at hstep
    subst hstep
    push_neg at hv
    refine ⟨hv.1, ?_⟩
    intro h rest hql
    rw [makeINatRequest_cons { s with timer := none, now := t } h rest hql]
    exact ⟨rfl, rfl⟩
  · intro s t d s' h rest hif hrl hql hstep
    have hlt : ¬ t < s.now := by
      by_contra hlt
      rw [stepv, hif] at hstep
      simp only [if_pos hlt] at hstep
      exact absurd hstep (by simp)
    rw [stepv_complete_eq s t d hif hlt, if_neg (by simp [hrl])] at hstep
    simp only [Option.some.injEq] at hstep
    subst hstep
    rw [makeINatRequest_cons
      { s with fired := s.fired ++ [d], inFlight := none, now := t } h rest hql]
    exact ⟨rfl, rfl⟩

/-- Witness for `dispatch_cooldown_policy` at concrete states: a rate-limited
completion schedules the timer for `t + 1000`, a pending timer firing
dispatches the head descriptor, and an unthrottled completion dispatches
immediately. -/
theorem dispatch_cooldown_policy_witness :
    ((⟨[], true, true, none, some 1003, [3], 3⟩ : EngineState).inFlight = none ∧
      (⟨[], true, true, none, some 1003, [3], 3⟩ : EngineState).timer =
        some (3 + apiOptions.APITimeout)) ∧
    ((⟨[], true, true, some 9, none, [3], 1005⟩ : EngineState).inFlight = some 9 ∧
      (⟨[], true, true, some 9, none, [3], 1005⟩ : EngineState).now = 1005) ∧
    ((⟨[], true, false, some 4, none, [3], 7⟩ : EngineState).inFlight = some 4 ∧
      (⟨[], true, false, some 4, none, [3], 7⟩ : EngineState).now = 7) := by
  refine ⟨?_, ?_, ?_⟩
  · exact dispatch_cooldown_policy.2.1 ⟨[], true, true, some 3, none, [], 0⟩ 3 3
      ⟨[], true, true, none, some 1003, [3], 3⟩ rfl rfl (by decide)
  · exact (dispatch_cooldown_policy.2.2.1
      ⟨[9], true, true, none, some 1003, [3], 3⟩ 1005 1003
      ⟨[], true, true, some 9, none, [3], 1005⟩ rfl (by decide)).2 9 [] rfl
  · exact dispatch_cooldown_policy.2.2.2 ⟨[4], true, false, some 3, none, [], 0⟩
      7 3 ⟨[], true, false, some 4, none, [3], 7⟩ 4 [] rfl rfl rfl (by decide)


/-! ## Fuel irrelevance for the iterated scans

`scanPairs` and `decodeChars` drive their loops with a fuel argument
initialised to the input length.  The lemmas below prove the fuel is
irrelevant — every iteration strictly shortens the input, so the functions
satisfy exactly the recurrences of the source loops. -/

theorem length_dropWhile_le (p : Char → Bool) (l : List Char) :
    (l.dropWhile p).length ≤ l.length := by
  calc (l.dropWhile p).length
      ≤ (l.takeWhile p).length + (l.dropWhile p).length := Nat.le_add_left _ _
    _ = l.length := by rw [← List.length_append, List.takeWhile_append_dropWhile]

theorem attemptAt_length (cs : List Char) (k v : String) (rest : List Char)
    (h : attemptAt cs = some (k, v, rest)) : rest.length < cs.length := by
  rw [attemptAt] at h
  split at h
  · exact absurd h (by simp)
  · rename_i hk
    split at h
    · rename_i rest2 heq
      simp only [Option.some.injEq, Prod.mk.injEq] at h
      obtain ⟨-, -, h3⟩ := h
      subst h3
      have h1 : (cs.takeWhile isKeyChar).length +
          (cs.dropWhile isKeyChar).length = cs.length := by
        rw [← List.length_append, List.takeWhile_append_dropWhile]
      have h2 : (cs.takeWhile isKeyChar).length ≠ 0 := by
        intro hz
        rw [List.length_eq_zero] at hz
        rw [hz] at hk
        exact hk rfl
      have h4 := length_dropWhile_le isValChar rest2
      have h5 : (cs.dropWhile isKeyChar).length = rest2.length + 1 := by
        rw [heq]; rfl
      omega
    · exact absurd h (by simp)

theorem matchAt_length (cs : List Char) (k v : String) (rest : List Char)
    (h : matchAt cs = some (k, v, rest)) : rest.length < cs.length := by
  rw [matchAt.eq_def] at h
  split at h
  · rename_i rest1
    have := attemptAt_length rest1 k v rest h
    simp only [List.length_cons]
    omega
  · rename_i rest1
    split at h
    · rename_i r hr
      simp only [Option.some.injEq] at h
      subst h
      have := attemptAt_length rest1 k v rest hr
      simp only [List.length_cons]
      omega
    · exact attemptAt_length _ k v rest h
  · exact attemptAt_length _ k v rest h

theorem findMatch_length (cs : List Char) (k v : String) (rest : List Char)
    (h : findMatch cs = some (k, v, rest)) : rest.length < cs.length := by
  induction cs with
  | nil => rw [findMatch] at h; exact absurd h (by simp)
  | cons c cs1 ih =>
    rw [findMatch] at h
    cases hm : matchAt (c :: cs1) with
    | some r =>
      rw [hm] at h
      simp only [Option.some.injEq] at h
      subst h
      exact matchAt_length _ k v rest hm
    | none =>
      rw [hm] at h
      simp only [] at h
      have := ih h
      simp only [List.length_cons]
      omega

theorem scanGo_nil (n : Nat) : scanGo n [] = [] := by
  cases n <;> rfl

theorem scanGo_succ (n : Nat) :
    ∀ cs : List Char, cs.length ≤ n → scanGo (n + 1) cs = scanGo n cs := by
  induction n with
  | zero =>
    intro cs hlen
    have : cs = [] := List.eq_nil_of_length_eq_zero (Nat.le_zero.mp hlen)
    subst this
    rfl
  | succ n ih =>
    intro cs hlen
    cases cs with
    | nil => rw [scanGo_nil, scanGo_nil]
    | cons c cs1 =>
      rw [scanGo, scanGo]
      cases hm : findMatch (c :: cs1) with
      | none => rfl
      | some r =>
        obtain ⟨k, v, rest⟩ := r
        have hr : rest.length ≤ n := by
          have := findMatch_length _ k v rest hm
          simp only [List.length_cons] at this hlen
          omega
        simp only []
        rw [ih rest hr]

theorem scanGo_ge (n : Nat) (cs : List Char) (hlen : cs.length ≤ n) :
    scanGo n cs = scanPairs cs := by
  rw [scanPairs]
  obtain ⟨k, rfl⟩ : ∃ k, n = cs.length + k :=
    ⟨n - cs.length, by omega⟩
  induction k with
  | zero => rfl
  | succ k ih =>
    rw [show cs.length + (k + 1) = (cs.length + k) + 1 from rfl,
        scanGo_succ (cs.length + k) cs (by omega)]
    exact ih (by omega)

/-- The global-regex loop of `getUrlParams` satisfies the intended
recurrence: the fuel in `scanGo` never runs out. -/
theorem scanPairs_eq (cs : List Char) :
    scanPairs cs =
      match findMatch cs with
      | none => []
      | some (k, v, rest) => (k, v) :: scanPairs rest := by
  cases cs with
  | nil => rfl
  | cons c cs1 =>
    rw [scanPairs]
    rw [show (c :: cs1).length = cs1.length + 1 from rfl, scanGo]
    cases hm : findMatch (c :: cs1) with
    | none => rfl
    | some r =>
      obtain ⟨k, v, rest⟩ := r
      simp only []
      have hr : rest.length ≤ cs1.length := by
        have := findMatch_length _ k v rest hm
        simp only [List.length_cons] at this
        omega
      rw [scanGo_ge cs1.length rest hr]

theorem readByte?_length (cs : List Char) (b : Nat) (r : List Char)
    (h : readByte? cs = some (b, r)) : r.length + 3 = cs.length := by
  rw [readByte?.eq_def] at h
  split at h
  · rename_i h1 h2 rest
    split at h
    · simp only [Option.some.injEq, Prod.mk.injEq] at h
      obtain ⟨-, h3⟩ := h
      subst h3
      rfl
    · exact absurd h (by simp)
  · exact absurd h (by simp)


theorem readSeq_length (cs : List Char) (c : Char) (rest : List Char)
    (h : readSeq cs = some (c, rest)) : rest.length < cs.length := by
  rw [readSeq] at h
  cases hb1 : readByte? cs with
  | none => rw [hb1] at h; exact absurd h (by simp)
  | some p1 =>
    obtain ⟨b1, r1⟩ := p1
    have l1 := readByte?_length cs b1 r1 hb1
    rw [hb1] at h
    simp only [] at h
    by_cases hc1 : b1 < 0x80
    · rw [if_pos hc1] at h
      simp only [Option.some.injEq, Prod.mk.injEq] at h
      obtain ⟨-, h2⟩ := h
      subst h2
      omega
    · rw [if_neg hc1] at h
      by_cases hc2 : 0xC2 ≤ b1 ∧ b1 ≤ 0xDF
      · rw [if_pos hc2] at h
        cases hb2 : readByte? r1 with
        | none => rw [hb2] at h; exact absurd h (by simp)
        | some p2 =>
          obtain ⟨b2, r2⟩ := p2
          have l2 := readByte?_length r1 b2 r2 hb2
          rw [hb2] at h
          simp only [] at h
          split at h
          · simp only [Option.some.injEq, Prod.mk.injEq] at h
            obtain ⟨-, h2⟩ := h
            subst h2
            omega
          · exact absurd h (by simp)
      · rw [if_neg hc2] at h
        by_cases hc3 : 0xE0 ≤ b1 ∧ b1 ≤ 0xEF
        · rw [if_pos hc3] at h
          cases hb2 : readByte? r1 with
          | none => rw [hb2] at h; exact absurd h (by simp)
          | some p2 =>
            obtain ⟨b2, r2⟩ := p2
            have l2 := readByte?_length r1 b2 r2 hb2
            rw [hb2] at h
            simp only [] at h
            by_cases hcc : (if b1 = 0xE0 then 0xA0 else 0x80) ≤ b2 ∧
                b2 ≤ (if b1 = 0xED then 0x9F else 0xBF)
            · rw [if_pos hcc] at h
              cases hb3 : readByte? r2 with
              | none => rw [hb3] at h; exact absurd h (by simp)
              | some p3 =>
                obtain ⟨b3, r3⟩ := p3
                have l3 := readByte?_length r2 b3 r3 hb3
                rw [hb3] at h
                simp only [] at h
                split at h
                · simp only [Option.some.injEq, Prod.mk.injEq] at h
                  obtain ⟨-, h2⟩ := h
                  subst h2
                  omega
                · exact absurd h (by simp)
            · rw [if_neg hcc] at h
              exact absurd h (by simp)
        · rw [if_neg hc3] at h
          by_cases hc4 : 0xF0 ≤ b1 ∧ b1 ≤ 0xF4
          · rw [if_pos hc4] at h
            cases hb2 : readByte? r1 with
            | none => rw [hb2] at h; exact absurd h (by simp)
            | some p2 =>
              obtain ⟨b2, r2⟩ := p2
              have l2 := readByte?_length r1 b2 r2 hb2
              rw [hb2] at h
              simp only [] at h
              by_cases hcc : (if b1 = 0xF0 then 0x90 else 0x80) ≤ b2 ∧
                  b2 ≤ (if b1 = 0xF4 then 0x8F else 0xBF)
              · rw [if_pos hcc] at h
                cases hb3 : readByte? r2 with
                | none => rw [hb3] at h; exact absurd h (by simp)
                | some p3 =>
                  obtain ⟨b3, r3⟩ := p3
                  have l3 := readByte?_length r2 b3 r3 hb3
                  rw [hb3] at h
                  simp only [] at h
                  split at h
                  · cases hb4 : readByte? r3 with
                    | none => rw [hb4] at h; exact absurd h (by simp)
                    | some p4 =>
                      obtain ⟨b4, r4⟩ := p4
                      have l4 := readByte?_length r3 b4 r4 hb4
                      rw [hb4] at h
                      simp only [] at h
                      split at h
                      · simp only [Option.some.injEq, Prod.mk.injEq] at h
                        obtain ⟨-, h2⟩ := h
                        subst h2
                        omega
                      · exact absurd h (by simp)
                  · exact absurd h (by simp)
              · rw [if_neg hcc] at h
                exact absurd h (by simp)
          · rw [if_neg hc4] at h
            exact absurd h (by simp)

theorem decodeGo_nil (n : Nat) : decodeGo n [] = .ok [] := by
  cases n <;> rfl

theorem decodeGo_succ (n : Nat) :
    ∀ cs : List Char, cs.length ≤ n → decodeGo (n + 1) cs = decodeGo n cs := by
  induction n with
  | zero =>
    intro cs hlen
    have : cs = [] := List.eq_nil_of_length_eq_zero (Nat.le_zero.mp hlen)
    subst this
    rfl
  | succ n ih =>
    intro cs hlen
    cases cs with
    | nil => rw [decodeGo_nil, decodeGo_nil]
    | cons c cs1 =>
      rw [decodeGo, decodeGo]
      by_cases hc : c = '%'
      · simp only [if_pos hc]
        cases hrs : readSeq (c :: cs1) with
        | none => rfl
        | some p =>
          obtain ⟨ch, rest2⟩ := p
          simp only []
          have hr : rest2.length ≤ n := by
            have := readSeq_length (c :: cs1) ch rest2 hrs
            simp only [List.length_cons] at this hlen
            omega
          rw [ih rest2 hr]
      · simp only [if_neg hc]
        have hr : cs1.length ≤ n := by
          simp only [List.length_cons] at hlen
          omega
        rw [ih cs1 hr]

theorem decodeGo_ge (n : Nat) (cs : List Char) (hlen : cs.length ≤ n) :
    decodeGo n cs = decodeChars cs := by
  rw [decodeChars]
  obtain ⟨k, rfl⟩ : ∃ k, n = cs.length + k :=
    ⟨n - cs.length, by omega⟩
  induction k with
  | zero => rfl
  | succ k ih =>
    rw [show cs.length + (k + 1) = (cs.length + k) + 1 from rfl,
        decodeGo_succ (cs.length + k) cs (by omega)]
    exact ih (by omega)

/-- The decode loop of `decodeURIComponent` satisfies the intended
recurrence: the fuel in `decodeGo` never runs out. -/
theorem decodeChars_eq (cs : List Char) :
    decodeChars cs =
      match cs with
      | [] => .ok []
      | c :: rest =>
        if c = '%' then
          match readSeq (c :: rest) with
          | none => .error .uriError
          | some (ch, rest2) => (decodeChars rest2).map (ch :: ·)
        else (decodeChars rest).map (c :: ·) := by
  cases cs with
  | nil => rfl
  | cons c cs1 =>
    rw [decodeChars]
    rw [show (c :: cs1).length = cs1.length + 1 from rfl, decodeGo]
    by_cases hc : c = '%'
    · simp only [if_pos hc]
      cases hrs : readSeq (c :: cs1) with
      | none => rfl
      | some p =>
        obtain ⟨ch, rest2⟩ := p
        simp only []
        have hr : rest2.length ≤ cs1.length := by
          have := readSeq_length (c :: cs1) ch rest2 hrs
          simp only [List.length_cons] at this
          omega
        rw [decodeGo_ge cs1.length rest2 hr]
    · simp only [if_neg hc]
      rw [decodeGo_ge cs1.length cs1 (Nat.le_refl _)]

end INatJS
